import Mathlib

/-!
Verification of the ldml-api repository's language-tag and langtags-database
components against their natural-language specification.

The development shallowly embeds the Rust sources:
  * `language-tag/src/tag.rs`    — the compact mutable `Tag` buffer type,
  * `language-tag/src/parser.rs` — the nom-based BCP-47 parser,
  * `langtags/src/tagset.rs`     — `TagSet` and its expansion iterators,
  * `langtags/src/json.rs`       — the `LangTags` database, loading and queries,
  * `src/toggle.rs`              — the `Toggle` query-parameter type.

Strings are modelled as `List Char` (the sources only ever manipulate ASCII
tag text); the `u8` component offsets of `Tag` are modelled as `Nat`
(real tags are far below the 255-byte wrap-around point).  Panics in the
source are modelled with `Except Unit` results.
-/

deriving instance DecidableEq for Except

/-! ### Generic list helpers mirroring the `str`/`String` operations used. -/

/-- `&l[i..j]`: Rust strSlice of a string by byte range. -/
def strSlice (l : List Char) (i j : Nat) : List Char := (l.take j).drop i

/-- `String::replace_range(i..j, s)`. -/
def replaceRange (l : List Char) (i j : Nat) (s : List Char) : List Char :=
  l.take i ++ s ++ l.drop j

/-- `str::split('-')`: every dash-separated field, n dashes giving n+1 fields. -/
def splitAll : List Char → List (List Char)
  | [] => [[]]
  | c :: cs =>
    match splitAll cs with
    | [] => [[]] -- unreachable: splitAll never returns []
    | p :: ps => if c = '-' then [] :: p :: ps else (c :: p) :: ps

/-- `str::split_terminator('-')`: like split, but a trailing empty field is
dropped (so the empty string yields no fields). -/
def splitTerm (l : List Char) : List (List Char) :=
  let ps := splitAll l
  if ps.getLast? = some [] then ps.dropLast else ps

/-- `[&str]::join("-")`. -/
def joinDash : List (List Char) → List Char
  | [] => []
  | [x] => x
  | x :: xs => x ++ '-' :: joinDash xs

/-- `str::rsplit_once('-')`: split at the last dash, returning the text
before and after it. -/
def rsplitOnce (l : List Char) : Option (List Char × List Char) :=
  if l.contains '-' then
    some (l.take (l.length - (l.reverse.takeWhile (fun c => c ≠ '-')).reverse.length - 1),
          (l.reverse.takeWhile (fun c => c ≠ '-')).reverse)
  else none

/-- Byte-wise lexicographic `≤` on strings (`Ord for str`). -/
def lexLe : List Char → List Char → Bool
  | [], _ => true
  | _ :: _, [] => false
  | a :: as', b :: bs => if a = b then lexLe as' bs else decide (a < b)

/-- Insertion step of the sort modelling `[&str]::sort_unstable()`. -/
def insertLex (x : List Char) : List (List Char) → List (List Char)
  | [] => [x]
  | y :: ys => if lexLe x y then x :: y :: ys else y :: insertLex x ys

/-- `[&str]::sort_unstable()` (insertion sort; equal keys are
indistinguishable values so stability is irrelevant). -/
def sortLex : List (List Char) → List (List Char)
  | [] => []
  | x :: xs => insertLex x (sortLex xs)

/-! ### `Tag` — `language-tag/src/tag.rs`. -/

/-- `struct Offsets`: the five component end offsets into the tag buffer
(the source's `u8` fields, modelled as `Nat`).  The source field `end` is a
Lean keyword, hence `ends` on the `Tag` side. -/
structure Offsets where
  lang : Nat
  script : Nat
  region : Nat
  variants : Nat
  extensions : Nat
deriving DecidableEq

/-- `struct Tag`: one contiguous text buffer plus component end offsets. -/
structure Tag where
  buf : List Char
  ends : Offsets
deriving DecidableEq

namespace Tag

/-- `Tag::with_lang`. -/
def withLang (lang : List Char) : Tag :=
  let len := lang.length
  { buf := lang, ends := ⟨len, len, len, len, len⟩ }

/-- `Tag::privateuse`. -/
def privateuse (p : List Char) : Tag :=
  { buf := p, ends := ⟨0, 0, 0, 0, 0⟩ }

/-- `Tag::default()`. -/
def defaultTag : Tag := privateuse []

/-- The length contribution of a variants/extensions component:
`iter.reduce(|a, b| a.saturating_add(b).saturating_add(1)).map(|s| s + 1).unwrap_or_default()`. -/
def reduceLens : List Nat → Nat
  | [] => 0
  | x :: xs => xs.foldl (fun a b => a + b + 1) x + 1

/-- `Tag::new`: assemble a `Tag` from the full text and component lengths.
`script`/`region`/`priv` are `NonZeroUsize` options in the source. -/
def new (full : List Char) (lang : Nat) (script region : Option Nat)
    (variants exts : List Nat) (priv : Option Nat) : Tag :=
  if lang = 0 ∧ priv.isSome then privateuse full
  else
    let l := lang
    let sc := l + (match script with | some s => s + 1 | none => 0)
    let rg := sc + (match region with | some r => r + 1 | none => 0)
    let va := rg + reduceLens variants
    let ex := va + reduceLens exts
    { buf := full, ends := ⟨l, sc, rg, va, ex⟩ }

/-- `Option<&str>` to `Option<NonZeroUsize>` via `len().try_into().ok()`. -/
def nzLen (o : Option (List Char)) : Option Nat :=
  o.bind (fun s => if s.length = 0 then none else some s.length)

/-- Extension namespace elision used by `from_parts` (`scan`) and
`set_extensions`: drop the leading `ns-` of entries repeating the previous
namespace.  `ns0` is the initial namespace accumulator (`""` in
`from_parts`, `"\0"` in `set_extensions`). -/
def elideExts : List (List Char) → List Char → List (List Char)
  | [], _ => []
  | e :: es, ns =>
    if e.take 2 = ns then e.drop 2 :: elideExts es ns
    else e :: elideExts es (e.take 2)

/-- `Tag::from_parts`. -/
def fromParts (lang : List Char) (script region : Option (List Char))
    (vars exts : List (List Char)) (priv : Option (List Char)) : Tag :=
  match lang, priv with
  | [], some p => privateuse p
  | _, _ =>
    let elided := elideExts exts []
    let parts := script.toList ++ region.toList ++ vars ++ elided ++ priv.toList
    let full := lang ++ parts.flatMap (fun v => '-' :: v)
    new full lang.length (nzLen script) (nzLen region)
      (vars.map List.length) (elided.map List.length) (nzLen priv)

/-! Accessors. -/

/-- `Tag::as_str` / `Display for Tag`: the raw buffer. -/
def render (t : Tag) : List Char := t.buf

/-- `Tag::lang`. -/
def lang (t : Tag) : List Char := t.buf.take t.ends.lang

/-- `Tag::script`: the `lang..script` strSlice without its leading dash. -/
def script (t : Tag) : Option (List Char) :=
  let s := strSlice t.buf t.ends.lang t.ends.script
  if s = [] then none else some (s.drop 1)

/-- `Tag::region`. -/
def region (t : Tag) : Option (List Char) :=
  let s := strSlice t.buf t.ends.script t.ends.region
  if s = [] then none else some (s.drop 1)

/-- `Tag::private`. -/
def privatePart (t : Tag) : Option (List Char) :=
  let s := t.buf.drop t.ends.extensions
  if s = [] then none else some (s.drop 1)

/-- `Tag::variants`: the variants strSlice (sans leading dash) split on dashes. -/
def variantsList (t : Tag) : List (List Char) :=
  let r := strSlice t.buf t.ends.region t.ends.variants
  splitTerm (if r = [] then r else r.drop 1)

/-- One step of the `Extentions` iterator: a 1-char field switches the
current namespace and the following field is taken as a name. -/
def extIter : List (List Char) → Char → List (Char × List Char)
  | [], _ => []
  | [c] :: rest, _ =>
    match rest with
    | [] => []
    | m :: rest2 => (c, m) :: extIter rest2 c
  | n :: rest, ns => (ns, n) :: extIter rest ns

/-- `Tag::extensions`: namespace/name pairs from the elided buffer form
(initial namespace is `char::default()`, i.e. NUL). -/
def extsList (t : Tag) : List (Char × List Char) :=
  let r := strSlice t.buf t.ends.variants t.ends.extensions
  extIter (splitTerm (if r = [] then r else r.drop 1)) (Char.ofNat 0)

/-- `Tag::has_variants`. -/
def hasVariants (t : Tag) : Bool := t.ends.variants ≠ t.ends.region

/-- `Tag::has_extensions`. -/
def hasExtensions (t : Tag) : Bool := t.ends.extensions ≠ t.ends.variants

/-- `Tag::is_privateuse`. -/
def isPrivateuse (t : Tag) : Bool := t.ends.extensions = 0 ∧ t.buf ≠ []

/-- ASCII lower-casing of one char (`u8::to_ascii_lowercase`). -/
def lcase (c : Char) : Char :=
  if 'A' ≤ c ∧ c ≤ 'Z' then Char.ofNat (c.toNat + 32) else c

/-- `PartialEq for Tag`: ASCII-case-insensitive equality of the buffers. -/
def tagEq (a b : Tag) : Bool := a.buf.map lcase = b.buf.map lcase

/-! Mutators.  `component_range!` inserts a dash when writing a non-empty
component into an empty slot, keeps the existing dash otherwise, and removes
text and dash together when clearing. -/

/-- Net effect of `component_range!` + `replace_range` on the buffer for a
component occupying `s..e`. -/
def compReplace (buf : List Char) (s e : Nat) (comp : List Char) : List Char :=
  if comp = [] then replaceRange buf s e []
  else if e ≤ s then replaceRange buf s s ('-' :: comp)
  else replaceRange buf (s + 1) e comp

/-- Signed offset adjustment: `u8::wrapping_add_signed` (no wrap in the
modelled range). -/
def adj (o : Nat) (d : Int) : Nat := (Int.ofNat o + d).toNat

/-- `Offsets::adjust_script` (and everything below it). -/
def adjustScript (o : Offsets) (d : Int) : Offsets :=
  { o with script := adj o.script d, region := adj o.region d,
           variants := adj o.variants d, extensions := adj o.extensions d }

/-- `Offsets::adjust_region`. -/
def adjustRegion (o : Offsets) (d : Int) : Offsets :=
  { o with region := adj o.region d, variants := adj o.variants d,
           extensions := adj o.extensions d }

/-- `Offsets::adjust_variants`. -/
def adjustVariants (o : Offsets) (d : Int) : Offsets :=
  { o with variants := adj o.variants d, extensions := adj o.extensions d }

/-- `Offsets::adjust_extensions`. -/
def adjustExtensions (o : Offsets) (d : Int) : Offsets :=
  { o with extensions := adj o.extensions d }

/-- `Offsets::adjust_lang`. -/
def adjustLang (o : Offsets) (d : Int) : Offsets :=
  { o with lang := adj o.lang d, script := adj o.script d,
           region := adj o.region d, variants := adj o.variants d,
           extensions := adj o.extensions d }

/-- `Tag::set_lang`. -/
def setLang (t : Tag) (s : List Char) : Tag :=
  let buf' := replaceRange t.buf 0 t.ends.lang s
  { buf := buf', ends := adjustLang t.ends (Int.ofNat buf'.length - Int.ofNat t.buf.length) }

/-- `Tag::set_script`. -/
def setScript (t : Tag) (s : List Char) : Tag :=
  let buf' := compReplace t.buf t.ends.lang t.ends.script s
  { buf := buf', ends := adjustScript t.ends (Int.ofNat buf'.length - Int.ofNat t.buf.length) }

/-- `Tag::set_region`. -/
def setRegion (t : Tag) (s : List Char) : Tag :=
  let buf' := compReplace t.buf t.ends.script t.ends.region s
  { buf := buf', ends := adjustRegion t.ends (Int.ofNat buf'.length - Int.ofNat t.buf.length) }

/-- `Tag::set_variants` (the argument list is joined with dashes first). -/
def setVariants (t : Tag) (vs : List (List Char)) : Tag :=
  let buf' := compReplace t.buf t.ends.region t.ends.variants (joinDash vs)
  { buf := buf', ends := adjustVariants t.ends (Int.ofNat buf'.length - Int.ofNat t.buf.length) }

/-- `Tag::set_private` (no offsets follow the private component). -/
def setPrivate (t : Tag) (p : List Char) : Tag :=
  { t with buf := compReplace t.buf t.ends.extensions t.buf.length p }

/-- `Tag::assert_extension`, as the predicate "this input panics":
`subtag.len() <= 4 || subtag.as_bytes()[1] != b'-'`. -/
def assertExtension (e : List Char) : Bool :=
  e.length ≤ 4 || !(e.get? 1 == some '-')

/-- The buffer write shared by both `set_extensions` branches. -/
def setExtensionsRaw (t : Tag) (elided : List Char) : Tag :=
  let buf' := compReplace t.buf t.ends.variants t.ends.extensions elided
  { buf := buf', ends := adjustExtensions t.ends (Int.ofNat buf'.length - Int.ofNat t.buf.length) }

/-- `Tag::set_extensions`: an empty list clears the component; otherwise the
entries are sorted, each asserted well-formed (a failing assert panics,
modelled by `Except.error`), namespace-elided and joined. -/
def setExtensions (t : Tag) (es : List (List Char)) : Except Unit Tag :=
  if es = [] then .ok (setExtensionsRaw t [])
  else
    let sorted := sortLex es
    if sorted.any assertExtension then .error ()
    else .ok (setExtensionsRaw t (joinDash (elideExts sorted [Char.ofNat 0])))

/-- `Tag::push_variant`: insert `-variant` at the variants end offset. -/
def pushVariant (t : Tag) (v : List Char) : Tag :=
  let buf' := t.buf.take t.ends.variants ++ '-' :: v ++ t.buf.drop t.ends.variants
  { buf := buf', ends := adjustVariants t.ends (Int.ofNat buf'.length - Int.ofNat t.buf.length) }

/-- `Tag::pop_variant`: split the variants range at its last dash, remove
the final `-variant` and return the variant text. -/
def popVariant (t : Tag) : Option (List Char) × Tag :=
  let s := strSlice t.buf t.ends.region t.ends.variants
  match rsplitOnce s with
  | none => (none, t)
  | some (_, v) =>
    let start := t.ends.variants - v.length - 1
    let buf' := replaceRange t.buf start t.ends.variants []
    (some v,
     { buf := buf',
       ends := adjustVariants t.ends (Int.ofNat buf'.length - Int.ofNat t.buf.length) })

end Tag

/-! ### Parser — `language-tag/src/parser.rs` (nom combinators on `List Char`). -/

/-- A nom `complete` parser: input to optional value and remaining input. -/
abbrev P (α : Type) := List Char → Option (α × List Char)

/-- Sequencing of parsers. -/
def bindP {α β : Type} (p : P α) (f : α → P β) : P β := fun l =>
  match p l with
  | some (v, r) => f v r
  | none => none

/-- `nom::branch::alt` for two alternatives. -/
def altP {α : Type} (p q : P α) : P α := fun l =>
  match p l with
  | some x => some x
  | none => q l

/-- `nom::combinator::opt`. -/
def optP {α : Type} (p : P α) : P (Option α) := fun l =>
  match p l with
  | some (v, r) => some (some v, r)
  | none => some (none, l)

/-- `nom::combinator::verify`. -/
def verifyP {α : Type} (p : P α) (pred : α → Bool) : P α := fun l =>
  match p l with
  | some (v, r) => if pred v then some (v, r) else none
  | none => none

/-- `nom::combinator::recognize`: run the inner parser and yield the
consumed input instead of its value. -/
def recognizeP {α : Type} (p : P α) : P (List Char) := fun l =>
  match p l with
  | none => none
  | some (_, r) => some (l.take (l.length - r.length), r)

/-- `nom::character::complete::char`. -/
def charP (c : Char) : P Char := fun l =>
  match l with
  | x :: xs => if x = c then some (c, xs) else none
  | [] => none

/-- The `dash` helper: `char('-')`. -/
def dashP : P Char := charP '-'

/-- `nom::character::complete::none_of`. -/
def noneOf (s : List Char) : P Char := fun l =>
  match l with
  | c :: cs => if s.contains c then none else some (c, cs)
  | [] => none

/-- `nom::bytes::complete::take_while_m_n` (complete: greedy up to `n`,
error below `m`). -/
def takeWhileMN (m n : Nat) (p : Char → Bool) : P (List Char) := fun l =>
  let run := (l.takeWhile p).take n
  if run.length < m then none else some (run, l.drop run.length)

/-- `nom::bytes::complete::tag` for a fixed string. -/
def tagP (s : List Char) : P (List Char) := fun l =>
  if s.isPrefixOf l then some (s, l.drop s.length) else none

/-- `alphanums(m, n)`: `take_while_m_n(m, n, is_ascii_alphanumeric)`. -/
def alphanums (m n : Nat) : P (List Char) := takeWhileMN m n Char.isAlphanum

/-- `not(peek(verify(anychar, is_ascii_alphanumeric)))`: the end-of-subtag
lookahead, consuming nothing. -/
def eotP : P Unit := fun l =>
  match l with
  | [] => some ((), [])
  | c :: _ => if c.isAlphanum then none else some ((), l)

/-- The `langtag` terminator lookahead: next char (if any) is neither a
dash nor alphanumeric. -/
def terminatorP : P Unit := fun l =>
  match l with
  | [] => some ((), [])
  | c :: _ => if c = '-' || c.isAlphanum then none else some ((), l)

/-- `subtag(parser)`: `delimited(dash, parser, eot)`. -/
def subtagP {α : Type} (p : P α) : P α :=
  bindP dashP fun _ => bindP p fun v => bindP eotP fun _ => fun l => some (v, l)

/-- Up to `n` repetitions of `p` (each use here consumes input). -/
def manyUpTo {α : Type} : Nat → P α → List Char → (List α × List Char)
  | 0, _, l => ([], l)
  | n + 1, p, l =>
    match p l with
    | none => ([], l)
    | some (v, r) =>
      let (vs, r2) := manyUpTo n p r
      (v :: vs, r2)

/-- `nom::multi::many_m_n`. -/
def manyMN {α : Type} (m n : Nat) (p : P α) : P (List α) := fun l =>
  let (vs, r) := manyUpTo n p l
  if vs.length < m then none else some (vs, r)

/-- Fuelled repetition for `nom::multi::many0`; the fuel starts above the
input length and the guard mirrors nom's zero-consumption error. -/
def many0F {α : Type} (p : P α) : Nat → P (List α)
  | 0 => fun _ => none
  | fuel + 1 => fun l =>
    match p l with
    | none => some ([], l)
    | some (v, r) =>
      if r.length < l.length then
        match many0F p fuel r with
        | some (vs, r2) => some (v :: vs, r2)
        | none => none
      else none

/-- `nom::multi::many0`. -/
def many0 {α : Type} (p : P α) : P (List α) := fun l => many0F p (l.length + 1) l

/-- Tail of `separated_list1`: repeatedly parse `sep` then `p`, backtracking
over a trailing `sep` whose element fails. -/
def sepTailF {α γ : Type} (sep : P γ) (p : P α) : Nat → List Char → (List α × List Char)
  | 0, l => ([], l)
  | fuel + 1, l =>
    match sep l with
    | none => ([], l)
    | some (_, r1) =>
      match p r1 with
      | none => ([], l)
      | some (v, r2) =>
        if r2.length < l.length then
          let (vs, r3) := sepTailF sep p fuel r2
          (v :: vs, r3)
        else ([], l) -- unreachable: `sep` consumes (nom's infinite-loop guard)

/-- `nom::multi::separated_list1`. -/
def sepList1 {α γ : Type} (sep : P γ) (p : P α) : P (List α) := fun l =>
  match p l with
  | none => none
  | some (v, r) =>
    let (vs, r2) := sepTailF sep p (r.length + 1) r
    some (v :: vs, r2)

/-- `extension_form(prefix, min)`:
`recognize(separated_pair(prefix, dash, separated_list1(dash, alphanums(min, 8))))`. -/
def extensionForm {α : Type} (pfx : P α) (min : Nat) : P (List Char) :=
  recognizeP (bindP pfx fun _ => bindP dashP fun _ => sepList1 dashP (alphanums min 8))

/-- `private`: `extension_form(char('x'), 1)`. -/
def privateP : P (List Char) := extensionForm (charP 'x') 1

/-- `letters(l)`. -/
def lettersP (n : Nat) : P (List Char) := takeWhileMN n n Char.isAlpha

/-- `digits(l)`. -/
def digitsP (n : Nat) : P (List Char) := takeWhileMN n n Char.isDigit

/-- `ident`: 4 alphanumerics starting with a digit. -/
def identP : P (List Char) :=
  verifyP (alphanums 4 4) (fun s => match s with | c :: _ => c.isDigit | [] => false)

/-- `singleton`: any alphanumeric except `x`/`X`. -/
def singletonP : P Char := verifyP (noneOf ['x', 'X']) Char.isAlphanum

/-- `extlang`: 1–3 three-letter subtags. -/
def extlangP : P (List (List Char)) := manyMN 1 3 (subtagP (lettersP 3))

/-- `language`: `recognize(pair(alphanums(2,3), opt(extlang)))`. -/
def languageP : P (List Char) :=
  recognizeP (bindP (alphanums 2 3) fun _ => optP extlangP)

/-- `script`. -/
def scriptP : P (List Char) := subtagP (lettersP 4)

/-- `region`. -/
def regionP : P (List Char) := subtagP (altP (lettersP 2) (digitsP 3))

/-- `variant`. -/
def variantP : P (List Char) := subtagP (altP identP (alphanums 5 8))

/-- `extension`. -/
def extensionP : P (List Char) := subtagP (extensionForm singletonP 2)

/-- The six-component tuple of the `langtag` rule. -/
def langtagComps :
    P (List Char × Option (List Char) × Option (List Char) ×
       List (List Char) × List (List Char) × Option (List Char)) :=
  bindP languageP fun lg =>
  bindP (optP scriptP) fun sc =>
  bindP (optP regionP) fun rg =>
  bindP (many0 variantP) fun vars =>
  bindP (many0 extensionP) fun exts =>
  bindP (optP (subtagP privateP)) fun prv =>
  fun l => some ((lg, sc, rg, vars, exts, prv), l)

/-- `langtag`: tuple then terminator; variants and extensions are sorted
(only their lengths feed `Tag::new`); the buffer is the consumed input. -/
def langtagParse : P Tag := fun input =>
  match langtagComps input with
  | none => none
  | some ((lg, sc, rg, vars, exts, prv), r1) =>
    match terminatorP r1 with
    | none => none
    | some (_, rest) =>
      some (Tag.new (input.take (input.length - rest.length)) lg.length
              (Tag.nzLen sc) (Tag.nzLen rg)
              ((sortLex vars).map List.length) ((sortLex exts).map List.length)
              (Tag.nzLen prv), rest)

/-- `privateuse` rule: a private-use-only tag. -/
def privateuseParse : P Tag := fun l =>
  match privateP l with
  | some (pu, r) => some (Tag.privateuse pu, r)
  | none => none

/-- String literal to char list. -/
def str (s : String) : List Char := s.data

/-- `fixed_parse!`: recognize a fixed grandfathered string and substitute a
fixed `Tag::from_parts` value. -/
def fixedParse (name : List Char) (lg rg vr : Option (List Char)) : P Tag := fun l =>
  match tagP name l with
  | some (_, r) => some (Tag.fromParts (lg.getD name) none rg vr.toList [] none, r)
  | none => none

/-- `grandfathered_regular`. -/
def gfRegular : P Tag :=
  altP (fixedParse (str "cel-gaulish") none none none) <|
  altP (fixedParse (str "art-lojban") (some (str "jbo")) none none) <|
  altP (fixedParse (str "zh-min-nan") (some (str "nan")) none none) <|
  altP (fixedParse (str "zh-hakka") (some (str "hak")) none none) <|
  altP (fixedParse (str "zh-guoyu") (some (str "cmn")) none none) <|
  altP (fixedParse (str "zh-xiang") (some (str "hsn")) none none) <|
  altP (fixedParse (str "zh-min") none none none) <|
  altP (fixedParse (str "no-bok") (some (str "nb")) none none)
       (fixedParse (str "no-nyn") (some (str "nn")) none none)

/-- `grandfathered_irregular`. -/
def gfIrregular : P Tag :=
  altP (fixedParse (str "i-enochian") none none none) <|
  altP (fixedParse (str "en-GB-oed") (some (str "en")) (some (str "GB")) (some (str "oxendict"))) <|
  altP (fixedParse (str "i-default") none none none) <|
  altP (fixedParse (str "i-klingon") (some (str "tlh")) none none) <|
  altP (fixedParse (str "i-navajo") (some (str "nv")) none none) <|
  altP (fixedParse (str "sgn-BE-FR") (some (str "sfb")) none none) <|
  altP (fixedParse (str "sgn-BE-NL") (some (str "vgt")) none none) <|
  altP (fixedParse (str "sgn-CH-DE") (some (str "sgg")) none none) <|
  altP (fixedParse (str "i-mingo") none none none) <|
  altP (fixedParse (str "i-ami") (some (str "ami")) none none) <|
  altP (fixedParse (str "i-bnn") (some (str "bnn")) none none) <|
  altP (fixedParse (str "i-hak") (some (str "hak")) none none) <|
  altP (fixedParse (str "i-lux") (some (str "lb")) none none) <|
  altP (fixedParse (str "i-pwn") (some (str "pwn")) none none) <|
  altP (fixedParse (str "i-tao") (some (str "tao")) none none) <|
  altP (fixedParse (str "i-tay") (some (str "tay")) none none)
       (fixedParse (str "i-tsu") (some (str "tsu")) none none)

/-- `languagetag`: the four alternatives in source order. -/
def languagetag : P Tag :=
  altP gfRegular (altP langtagParse (altP privateuseParse gfIrregular))

/-- `FromStr for Tag`: run the parser and keep the tag, discarding any
unconsumed remainder. -/
def parseTag (s : List Char) : Option Tag := (languagetag s).map (fun x => x.1)

/-! ### `TagSet` — `langtags/src/tagset.rs`.

Only the fields the verified operations read are modelled; the remaining
JSON fields (`iana`, `iso639_3`, names, `sldr`, `windows`, …) are opaque
display metadata never inspected by the queries under study. -/

structure TagSet where
  full : Tag
  tag : Tag
  tags : List Tag
  regions : List (List Char)
  variants : List (List Char)
  nophonvars : Bool
deriving DecidableEq

namespace TagSet

/-- `Deref<Target = Tag>` for `TagSet`: `ts.script()` reads the full tag. -/
def script (ts : TagSet) : Option (List Char) := ts.full.script

/-- `ts.region()` via `Deref`. -/
def region (ts : TagSet) : Option (List Char) := ts.full.region

/-- `TagSet::iter`: `{tag, tags…, full}`. -/
def iterTS (ts : TagSet) : List Tag := ts.tag :: (ts.tags ++ [ts.full])

/-- `TagSet::region_sets`: for each alternate region, the region-bearing
tags of `iter()` with that region substituted. -/
def regionSets (ts : TagSet) : List (List Tag) :=
  let prototypes := (ts.iterTS.filter (fun t => t.region.isSome))
  ts.regions.map (fun r => prototypes.map (fun t => t.setRegion r))

/-- `TagSet::variant_sets`: for the base set and each region set, one
sub-sequence per variant with that variant pushed onto every tag. -/
def variantSets (ts : TagSet) : List (List Tag) :=
  let prototypes := ts.iterTS :: ts.regionSets
  prototypes.flatMap (fun proto =>
    ts.variants.map (fun v => proto.map (fun t => t.pushVariant v)))

/-- `TagSet::all_tags`: base set, then region sets, then variant sets. -/
def allTags (ts : TagSet) : List Tag :=
  ts.iterTS ++ ts.regionSets.flatten ++ ts.variantSets.flatten

end TagSet

/-! ### `Toggle` — `src/toggle.rs`. -/

/-- `FromStr for Toggle` (infallible): the five literal strings parse as
`OFF`, everything else as `ON`. -/
def toggleFromStr (s : String) : Bool :=
  if s = "" ∨ s = "0" ∨ s = "no" ∨ s = "false" ∨ s = "off" then false else true

/-- `Toggle::default()` (`#[derive(Default)]` on a `bool` wrapper). -/
def toggleDefault : Bool := false

/-- `Toggle::ON`. -/
def toggleOn : Bool := true

/-- `Toggle::OFF`. -/
def toggleOff : Bool := false

/-! ### `LangTags` — `langtags/src/json.rs`. -/

/-- `struct LangTags` (the `json` module variant used by the service).
`HashSet<String>` fields are modelled as lists queried by membership and
the `HashMap<String, u32>` full index as an association list. -/
structure LangTags where
  version : List Char
  date : List Char
  scripts : List (List Char)
  regions : List (List Char)
  variants : List (List Char)
  latn_variants : List (List Char)
  tagsets : List TagSet
  full : List (List Char × Nat)
deriving DecidableEq

/-- `LangTags::default()`. -/
def emptyLangTags : LangTags := ⟨[], [], [], [], [], [], [], []⟩

/-- `HashMap::get` on the association-list model. -/
def mapGet (m : List (List Char × Nat)) (k : List Char) : Option Nat :=
  (m.find? (fun p => p.1 == k)).map (fun p => p.2)

/-- `HashMap` insertion: overwrite an existing key, else append. -/
def mapInsert (m : List (List Char × Nat)) (k : List Char) (v : Nat) :
    List (List Char × Nat) :=
  if m.any (fun p => p.1 == k) then
    m.map (fun p => if p.1 == k then (k, v) else p)
  else m ++ [(k, v)]

/-- `HashMap::extend`. -/
def mapInsertAll (m : List (List Char × Nat)) (kvs : List (List Char × Nat)) :
    List (List Char × Nat) :=
  kvs.foldl (fun acc kv => mapInsert acc kv.1 kv.2) m

/-- `HashSet::insert` (sets are membership-queried lists). -/
def setInsert (s : List (List Char)) (x : List Char) : List (List Char) :=
  if s.contains x then s else s ++ [x]

/-- `HashSet::extend`. -/
def setInsertAll (s : List (List Char)) (xs : List (List Char)) : List (List Char) :=
  xs.foldl setInsert s

/-- The four reserved header objects of `langtags.json` (`enum Header`). -/
inductive Header where
  | globalvar (variants : List (List Char))
  | phonvar (variants : List (List Char))
  | version (api date : List Char)
  | conformance (scripts regions : List (List Char))
deriving DecidableEq

/-- A parsed JSON array element: a reserved header, a tag-set row, or a
value deserializable as neither. -/
inductive JValue where
  | header (h : Header)
  | record (ts : TagSet)
  | other
deriving DecidableEq

/-- `serde_json::from_value::<Header>(v).ok()`: only header objects parse
(a TagSet row's `tag` is not one of the reserved names). -/
def parseHeader : JValue → Option Header
  | .header h => some h
  | _ => none

/-- `serde_json::from_value::<TagSet>`: only record objects parse. -/
def parseTagSet : JValue → Option TagSet
  | .record ts => some ts
  | _ => none

/-- The `map_while` pass: leading elements that parse as headers. -/
def headersOf : List JValue → List Header
  | [] => []
  | v :: rest =>
    match parseHeader v with
    | some h => h :: headersOf rest
    | none => []

/-- The header `fold` of `from_reader`: each header replaces or extends the
corresponding global state. -/
def applyHeader (L : LangTags) : Header → LangTags
  | .globalvar vs => { L with variants := vs }
  | .phonvar vs => { L with latn_variants := vs }
  | .version api date => { L with version := api, date := date }
  | .conformance ss rs =>
      { L with scripts := L.scripts ++ ss, regions := L.regions ++ rs }

/-- `LangTags::build_caches`: index every `iter()` tag of every row and
collect scripts/regions.  The source `unwrap()`s each row's script and
region, panicking when absent: modelled as `none`. -/
def buildCachesAux : LangTags → Nat → List TagSet → Option LangTags
  | L, _, [] => some L
  | L, i, ts :: rest =>
    match ts.script, ts.region with
    | some sc, some rg =>
      buildCachesAux
        { L with
          full := mapInsertAll L.full (ts.iterTS.map (fun t => (t.render, i))),
          scripts := setInsert L.scripts sc,
          regions := setInsertAll (setInsert L.regions rg) ts.regions }
        (i + 1) rest
    | _, _ => none

/-- `LangTags::from_reader`, from the already-JSON-parsed value list:
consume leading headers, deserialize the rest as TagSet rows, then build
the caches (`shrink_to_fit` has no observable effect). -/
def fromValues (vs : List JValue) : Option LangTags :=
  let hs := headersOf vs
  let L0 := hs.foldl applyHeader emptyLangTags
  let rest := vs.drop hs.length
  match rest.mapM parseTagSet with
  | none => none
  | some tss => buildCachesAux { L0 with tagsets := tss } 0 tss

/-- `LangTags::conformant`. -/
def conformant (L : LangTags) (t : Tag) : Bool :=
  (match t.script with | some s => L.scripts.contains s | none => true) &&
  (match t.region with | some r => L.regions.contains r | none => true)

/-- `LangTags::valid_region`. -/
def validRegion (ts : TagSet) (rgn : Option (List Char)) : Bool :=
  match rgn with
  | some r => ts.region == some r || ts.regions.contains r
  | none => true

/-- `LangTags::valid_variants`. -/
def validVariants (L : LangTags) (ts : TagSet) (t : Tag) : Bool :=
  !t.hasVariants ||
    t.variantsList.all (fun v =>
      ts.variants.contains v || L.variants.contains v ||
      (!ts.nophonvars &&
       (ts.tag.script == none || ts.script == some (str "Latn")) &&
       L.latn_variants.contains v))

/-- `LangTags::valid_extensions`: an empty supplied set is valid; otherwise
some candidate tag's extension set must not be a subset of it. -/
def validExtensions (ts : TagSet) (es : List (Char × List Char)) : Bool :=
  es.isEmpty ||
    (ts.iterTS.map (fun t => t.extsList)).any
      (fun tc => !(tc.all (fun e => es.contains e)))

/-- The `or_else` lookup cascade of `orthographic_normal_form`: try the
verbatim key, then after clearing private, extensions, variants and region
in turn on the working copy; yield the resolved index and the final state
of the working copy. -/
def onfResolve (L : LangTags) (t : Tag) : Option (Tag × Nat) :=
  let k0 := t
  match mapGet L.full k0.render with
  | some i => some (k0, i)
  | none =>
    let k1 := k0.setPrivate []
    match mapGet L.full k1.render with
    | some i => some (k1, i)
    | none =>
      let k2 := match k1.setExtensions [] with | .ok k => k | .error _ => k1
      match mapGet L.full k2.render with
      | some i => some (k2, i)
      | none =>
        let k3 := k2.setVariants []
        match mapGet L.full k3.render with
        | some i => some (k3, i)
        | none =>
          let k4 := k3.setRegion []
          match mapGet L.full k4.render with
          | some i => some (k4, i)
          | none => none

/-- The successive key states of the cascade, in lookup order. -/
def onfKeys (t : Tag) : List Tag :=
  let k1 := t.setPrivate []
  let k2 := match k1.setExtensions [] with | .ok k => k | .error _ => k1
  let k3 := k2.setVariants []
  let k4 := k3.setRegion []
  [t, k1, k2, k3, k4]

/-- The acceptance check of `orthographic_normal_form`: a verbatim match
(`key == *tag`) is returned unchecked, otherwise all four validations must
hold, the private one being `ts.full.private() == tag.private()`. -/
def onfFinish (L : LangTags) (t key : Tag) (i : Nat) : Option TagSet :=
  match L.tagsets.get? i with
  | none => none
  | some ts =>
    if Tag.tagEq key t ||
       (validRegion ts t.region && validVariants L ts t &&
        validExtensions ts t.extsList && (ts.full.privatePart == t.privatePart))
    then some ts
    else none

/-- `LangTags::orthographic_normal_form`. -/
def orthographicNormalForm (L : LangTags) (t : Tag) : Option TagSet :=
  match onfResolve L t with
  | none => none
  | some (key, i) => onfFinish L t key i

/-- `Vec::position` (`iter().position(|x| x == region)`). -/
def position (l : List (List Char)) (x : List Char) : Option Nat :=
  match l with
  | [] => none
  | y :: ys => if y == x then some 0 else (position ys x).map (fun n => n + 1)

/-- `LangTags::locale_normal_form`.  The source `unwrap()`s the position of
the supplied region in the row's `regions` (and the row's own region);
a failing unwrap panics, modelled as `Except.error`. -/
def localeNormalForm (L : LangTags) (t : Tag) : Except Unit (Option TagSet) :=
  match orthographicNormalForm L t with
  | none => .ok none
  | some ts =>
    match t.region with
    | none => .ok (some ts)
    | some r =>
      match position ts.regions r with
      | none => .error ()
      | some ri =>
        match ts.region with
        | none => .error ()
        | some cr =>
          let ts1 := { ts with regions := ts.regions.set ri cr,
                               full := ts.full.setRegion r,
                               tag := ts.tag.setRegion r }
          let kept := ts1.tags.filter (fun tg => tg.region.isSome)
          .ok (some { ts1 with tags := kept.map (fun tg => tg.setRegion r) })

/-! ### Concrete fixtures used by counterexamples and witnesses. -/

/-- Build a `Tag` through the embedded parser (database rows deserialize
their tags through `FromStr` in the source). -/
def mktag (s : String) : Tag := (parseTag (str s)).getD (Tag.privateuse [])

/-- A representative `en` database row (shape as in the shipped corpus). -/
def enTS : TagSet :=
  { full := mktag "en-Latn-US", tag := mktag "en",
    tags := [mktag "en-Latn", mktag "en-US"],
    regions := [str "GB", str "TW"], variants := [str "simple"],
    nophonvars := false }

/-- A miniature `langtags.json` value list: the four headers and one row. -/
def dbVs : List JValue :=
  [ .header (.conformance [str "Moon"] [str "EU"]),
    .header (.globalvar [str "simple"]),
    .header (.phonvar [str "fonipa"]),
    .header (.version (str "1.2.1") (str "2021-06-29")),
    .record enTS ]

/-- The loaded miniature database. -/
def exL : LangTags := (fromValues dbVs).getD emptyLangTags

/-! ### Basic lemmas. -/

theorem tagEq_refl (t : Tag) : Tag.tagEq t t = true := by
  simp [Tag.tagEq]

/-- `position` misses exactly when the element is absent. -/
theorem position_eq_none_iff (l : List (List Char)) (x : List Char) :
    position l x = none ↔ l.contains x = false := by
  induction l with
  | nil => simp [position]
  | cons y ys ih =>
    by_cases h : y = x
    · simp [position, h]
    · have hbeq : (y == x) = false := by simpa using h
      simp [position, hbeq, Option.map_eq_none', ih, List.contains_cons]
      exact fun _ hxy => h hxy.symm

/-! ### Claim C7 — `Toggle::from_str`. -/

/-- C7 counterexample: the matching is case-sensitive, so the upper- and
mixed-case spellings the claim requires to parse as `false` parse as
`true`. -/
theorem C7_counterexample :
    toggleFromStr "NO" = true ∧ toggleFromStr "False" = true ∧
    toggleFromStr "OFF" = true := by decide

/-- C7 (amended): `Toggle::from_str` never fails, and yields `false`
exactly on the literal strings `""`, `"0"`, `"no"`, `"false"`, `"off"` —
matched case-sensitively, with no ASCII-lowercase folding; the default
`Toggle` value is `false`. -/
theorem C7_toggle_exact_match (s : String) :
    (toggleFromStr s = false ↔ s ∈ ["", "0", "no", "false", "off"]) ∧
    toggleDefault = false := by
  refine ⟨?_, rfl⟩
  by_cases h : s = "" ∨ s = "0" ∨ s = "no" ∨ s = "false" ∨ s = "off" <;>
    simp [toggleFromStr, h]

/-! ### Claim C4 — `LangTags::from_reader` header validation. -/

/-- Is a header the `_version` record? -/
def isVersionHeader : Header → Bool
  | .version _ _ => true
  | _ => false

/-- `build_caches` never touches the version or date metadata. -/
theorem buildCachesAux_meta (tss : List TagSet) : ∀ (L L' : LangTags) (i : Nat),
    buildCachesAux L i tss = some L' →
    L'.version = L.version ∧ L'.date = L.date := by
  induction tss with
  | nil =>
    intro L L' i h
    simp only [buildCachesAux, Option.some.injEq] at h
    subst h; exact ⟨rfl, rfl⟩
  | cons ts rest ih =>
    intro L L' i h
    simp only [buildCachesAux] at h
    split at h
    · simpa using ih _ _ _ h
    · simp at h

/-- The header fold only writes version/date on a `_version` header. -/
theorem foldl_applyHeader_no_version (hs : List Header) :
    ∀ L : LangTags, (∀ h ∈ hs, isVersionHeader h = false) →
    (hs.foldl applyHeader L).version = L.version ∧
    (hs.foldl applyHeader L).date = L.date := by
  induction hs with
  | nil => intro L _; exact ⟨rfl, rfl⟩
  | cons h rest ih =>
    intro L hnv
    have h1 := hnv h (by simp)
    have ih' := ih (applyHeader L h) (fun x hx => hnv x (by simp [hx]))
    cases h with
    | globalvar vs => simpa [applyHeader] using ih'
    | phonvar vs => simpa [applyHeader] using ih'
    | version api date => simp [isVersionHeader] at h1
    | conformance ss rs => simpa [applyHeader] using ih'

/-- C4 counterexample: a source with a single valid row and no `_version`
header loads successfully, with empty `api` and `date` metadata — the
claimed `MissingHeader` failure does not exist in `from_reader`. -/
theorem C4_counterexample :
    (fromValues [.record enTS]).map (fun L => (L.version, L.date)) =
      some ([], []) := by decide

/-- C4 (amended): `from_reader` applies no emptiness validation to the
`api`/`date` metadata after consuming headers: whenever the leading
headers contain no `_version` record, loading succeeds (if the remaining
rows deserialize) with both metadata strings left empty. -/
theorem C4_no_missing_header_check (vs : List JValue) (L : LangTags)
    (hnv : ∀ h ∈ headersOf vs, isVersionHeader h = false)
    (hload : fromValues vs = some L) :
    L.version = [] ∧ L.date = [] := by
  simp only [fromValues] at hload
  split at hload
  · simp at hload
  · rename_i tss heq
    have hbc := buildCachesAux_meta tss _ _ _ hload
    have hfold := foldl_applyHeader_no_version (headersOf vs) emptyLangTags hnv
    constructor
    · rw [hbc.1]; exact hfold.1
    · rw [hbc.2]; exact hfold.2

/-- C4 witness: the amended theorem applied to the concrete one-row
source. -/
theorem C4_witness :
    ((fromValues [.record enTS]).getD emptyLangTags).version = [] ∧
    ((fromValues [.record enTS]).getD emptyLangTags).date = [] := by
  have h := C4_no_missing_header_check [.record enTS]
    ((fromValues [.record enTS]).getD emptyLangTags) (by decide) (by decide)
  exact h

/-! ### Claim C1 — the `orthographic_normal_form` lookup cascade. -/

/-- C1 counterexample: for the query `en-KP`, the first four lookups miss
and the fifth (region cleared) hits row 0, yet the result is `None`
because validation rejects the region — refuting "returning None only
when all five lookups miss". -/
theorem C1_counterexample :
    orthographicNormalForm exL (mktag "en-KP") = none ∧
    (onfKeys (mktag "en-KP")).map (fun k => mapGet exL.full k.render) =
      [none, none, none, none, some 0] := by decide

/-- C1 (amended): the cascade tries the verbatim text, then the private-,
extension-, variant- and region-cleared working copies in that order; when
all five lookups miss the result is `None` (though `None` also arises when
a fallback hit fails validation); and a verbatim first hit returns the
indexed row immediately, no validation consulted. -/
theorem C1_lookup_cascade (L : LangTags) (t : Tag) :
    ((∀ k ∈ onfKeys t, mapGet L.full k.render = none) →
      orthographicNormalForm L t = none) ∧
    (∀ i : Nat, mapGet L.full t.render = some i →
      orthographicNormalForm L t = L.tagsets.get? i) := by
  constructor
  · intro h
    have h0 := h t (by simp [onfKeys])
    have h1 := h (t.setPrivate []) (by simp [onfKeys])
    have h2 := h (match (t.setPrivate []).setExtensions [] with
                  | .ok k => k | .error _ => t.setPrivate []) (by simp [onfKeys])
    have h3 := h ((match (t.setPrivate []).setExtensions [] with
                   | .ok k => k | .error _ => t.setPrivate []).setVariants [])
      (by simp [onfKeys])
    have h4 := h (((match (t.setPrivate []).setExtensions [] with
                    | .ok k => k | .error _ => t.setPrivate []).setVariants
                  []).setRegion []) (by simp [onfKeys])
    simp only [orthographicNormalForm, onfResolve, h0, h1, h2, h3, h4]
  · intro i hi
    simp only [orthographicNormalForm, onfResolve, hi, onfFinish, tagEq_refl,
      Bool.true_or, if_true]
    cases L.tagsets.get? i <;> rfl

/-- C1 witness: on the empty database every lookup misses so resolution
returns `None`; and on the miniature database the verbatim hit for
`en-Latn-US` returns row 0 immediately. -/
theorem C1_witness :
    orthographicNormalForm emptyLangTags (mktag "en-KP") = none ∧
    orthographicNormalForm exL (mktag "en-Latn-US") = exL.tagsets.get? 0 := by
  constructor
  · exact (C1_lookup_cascade emptyLangTags (mktag "en-KP")).1 (by decide)
  · exact (C1_lookup_cascade exL (mktag "en-Latn-US")).2 0 (by decide)

/-! ### Claim C2 — the private-subtag acceptance rule. -/

/-- C2 counterexample: `en-Latn-US-x-foo` resolves through the fallback
lookups to the `en` row; the region, variant and extension validations all
hold and the row's full tag carries no private subtags, yet the result is
`None` — the `json.rs` rule is plain equality of the two private
components, not the claimed absent-on-row-accepts-anything rule. -/
theorem C2_counterexample :
    orthographicNormalForm exL (mktag "en-Latn-US-x-foo") = none ∧
    (onfResolve exL (mktag "en-Latn-US-x-foo")).map
      (fun p => (Tag.tagEq p.1 (mktag "en-Latn-US-x-foo"), p.2)) =
      some (false, 0) ∧
    exL.tagsets.get? 0 = some enTS ∧
    validRegion enTS (mktag "en-Latn-US-x-foo").region = true ∧
    validVariants exL enTS (mktag "en-Latn-US-x-foo") = true ∧
    validExtensions enTS (mktag "en-Latn-US-x-foo").extsList = true ∧
    enTS.full.privatePart = none ∧
    (mktag "en-Latn-US-x-foo").privatePart = some (str "x-foo") := by decide

/-- C2 (amended): for a tag resolved through the fallback (non-verbatim)
lookups, acceptance requires — besides the region, variant and extension
validations — that `ts.full.private()` equal `tag.private()` as options:
both absent, or both present and equal.  A row whose full tag has no
private subtags therefore rejects any tag that carries one.  (The unused
private `langtags.rs` module implements the claimed absent-accepts-all
rule instead.) -/
theorem C2_private_equality (L : LangTags) (t key : Tag) (i : Nat) (ts : TagSet)
    (hres : onfResolve L t = some (key, i))
    (hkey : Tag.tagEq key t = false)
    (hts : L.tagsets.get? i = some ts) :
    orthographicNormalForm L t = some ts ↔
      (validRegion ts t.region = true ∧ validVariants L ts t = true ∧
       validExtensions ts t.extsList = true ∧
       ts.full.privatePart = t.privatePart) := by
  simp only [orthographicNormalForm, hres, onfFinish, hts, hkey, Bool.false_or]
  constructor
  · intro h
    by_cases hc : (validRegion ts t.region && validVariants L ts t &&
        validExtensions ts t.extsList && (ts.full.privatePart == t.privatePart)) = true
    · simp only [Bool.and_eq_true, beq_iff_eq] at hc
      exact ⟨hc.1.1.1, hc.1.1.2, hc.1.2, hc.2⟩
    · rw [if_neg (by simpa using hc)] at h; exact absurd h (by simp)
  · intro ⟨h1, h2, h3, h4⟩
    rw [if_pos]
    simp [h1, h2, h3, h4]

/-- C2 witness: the amended rule applied to the counterexample inputs —
since the private components differ, acceptance fails. -/
theorem C2_witness :
    ¬ orthographicNormalForm exL (mktag "en-Latn-US-x-foo") = some enTS := by
  intro hsome
  have h := (C2_private_equality exL (mktag "en-Latn-US-x-foo")
    (mktag "en-Latn-US") 0 enTS (by decide) (by decide) (by decide)).mp hsome
  exact absurd (h.2.2.2) (by decide)

/-! ### Claim C3 — `locale_normal_form` panic behaviour. -/

/-- C3 counterexample: `en-Latn-US` resolves verbatim and its region is
exactly the row's canonical region, yet `locale_normal_form` panics: the
canonical region is (per the data-model invariant) not listed in
`regions`, so `position(..).unwrap()` fails. -/
theorem C3_counterexample :
    localeNormalForm exL (mktag "en-Latn-US") = .error () ∧
    orthographicNormalForm exL (mktag "en-Latn-US") = some enTS ∧
    (mktag "en-Latn-US").region = enTS.region ∧
    enTS.regions.contains ((mktag "en-Latn-US").region.getD []) = false := by
  decide

/-- C3 (amended): for a tag accepted by orthographic resolution that
carries a region, `locale_normal_form` panics exactly when that region is
not an element of the resolved row's `regions` list — equality with the
row's canonical region does not prevent the panic. -/
theorem C3_panic_iff_region_not_listed (L : LangTags) (t : Tag) (ts : TagSet)
    (r : List Char)
    (honf : orthographicNormalForm L t = some ts)
    (hr : t.region = some r)
    (hcr : ts.region.isSome) :
    localeNormalForm L t = .error () ↔ ts.regions.contains r = false := by
  obtain ⟨cr, hcr⟩ := Option.isSome_iff_exists.mp hcr
  simp only [localeNormalForm, honf, hr]
  cases hpos : position ts.regions r with
  | none =>
    simp only [true_iff]
    exact (position_eq_none_iff _ _).mp hpos
  | some ri =>
    rw [hcr]
    constructor
    · intro h; exact absurd h (by simp)
    · intro h
      have := (position_eq_none_iff ts.regions r).mpr h
      rw [hpos] at this
      exact absurd this (by simp)

/-- C3 witness: the amended characterisation at the concrete panic case
(`en-Latn-US`, canonical region not listed) and implicitly its converse
through the iff. -/
theorem C3_witness :
    localeNormalForm exL (mktag "en-Latn-US") = .error () := by
  exact (C3_panic_iff_region_not_listed exL (mktag "en-Latn-US") enTS
    (str "US") (by decide) (by decide) (by decide)).mpr (by decide)

/-! ### Claim C6 — extension mutator failure model. -/

/-- The name-collecting `scan` of `find_extension`: successive dash offsets
delimit names; a 1-char field (the next namespace) stops the scan. -/
def scanNames (elided : List Char) : List Nat → Nat → List (Nat × List Char)
  | [], _ => []
  | e :: es, start =>
    let name := strSlice elided start (e - 1)
    if name.length = 1 then []
    else (start, name) :: scanNames elided es e

/-- `Tag::find_extension`.  `Ok`/`Err` of the source's `Result` are
`Sum.inl`/`Sum.inr`; the leading `assert_extension` panic (and the
out-of-bounds panic when the found namespace has no names) is
`Except.error`.  `binary_search_by_key` is modelled as linear search,
which agrees with it on the sorted name lists well-formed tags carry. -/
def findExtension (t : Tag) (ext : List Char) :
    Except Unit ((Nat × List Char) ⊕ (Nat × List Char)) :=
  if Tag.assertExtension ext then .error ()
  else
    let ns2 := ext.take 2
    let name := ext.drop 2
    let rs := t.ends.variants
    let elided := strSlice t.buf t.ends.variants t.ends.extensions
    let offs := ((List.range elided.length).filter
      (fun i => elided.get? i = some '-')).map (fun o => o + 1)
    match offs.findIdx? (fun off => strSlice elided off (off + 2) == ns2) with
    | none => .ok (.inr (t.ends.extensions, ext))
    | some j =>
      match offs.drop (j + 1) with
      | [] => .ok (.inr (t.ends.extensions, ext))
      | start :: more =>
        let names := scanNames elided (more ++ [elided.length + 1]) start
        match names.findIdx? (fun p => p.2 == name) with
        | some i =>
          if names.length = 1 then
            .ok (.inl (rs + (((names.get? i).map (fun p => p.1)).getD 0) - 2, ext))
          else
            .ok (.inl (rs + (((names.get? i).map (fun p => p.1)).getD 0), name))
        | none =>
          if names.length = 0 then .error ()
          else
            let i := (names.filter (fun p => lexLe p.2 name)).length
            let pos :=
              if i = names.length then
                match names.getLast? with
                | some p => p.1 + p.2.length
                | none => 0
              else (((names.get? i).map (fun p => p.1 - 1)).getD 0)
            .ok (.inr (rs + pos, name))

/-- `Tag::add_extension`: insert `-<entry>` at the position reported by a
failed lookup; a successful lookup is a no-op. -/
def Tag.addExtension (t : Tag) (ext : List Char) : Except Unit Tag :=
  match findExtension t ext with
  | .error () => .error ()
  | .ok (.inl _) => .ok t
  | .ok (.inr (pos, e)) =>
    let buf' := t.buf.take pos ++ '-' :: e ++ t.buf.drop pos
    .ok { buf := buf',
          ends := Tag.adjustExtensions t.ends
            (Int.ofNat buf'.length - Int.ofNat t.buf.length) }

theorem insertLex_any (p : List Char → Bool) (x : List Char) (l : List (List Char)) :
    (insertLex x l).any p = (x :: l).any p := by
  induction l with
  | nil => rfl
  | cons y ys ih =>
    simp only [insertLex]
    by_cases h : lexLe x y <;> simp [h, List.any_cons] at ih ⊢
    rw [ih, ← Bool.or_assoc, Bool.or_comm (p y) (p x), Bool.or_assoc]

theorem sortLex_any (p : List Char → Bool) (l : List (List Char)) :
    (sortLex l).any p = l.any p := by
  induction l with
  | nil => rfl
  | cons x xs ih => rw [sortLex, insertLex_any, List.any_cons, ih, List.any_cons]

/-- C6 counterexample: the well-formed minimal extension `a-bc` (name
length 2, inside the claimed accepted range) panics, while `a-bcdefghij`
(name length 9, outside the claimed range) is accepted: the actual check
is `len <= 4 || byte[1] != '-'`. -/
theorem C6_counterexample :
    Tag.setExtensions (Tag.withLang (str "en")) [str "a-bc"] = .error () ∧
    (Tag.setExtensions (Tag.withLang (str "en")) [str "a-bcdefghij"]).toOption.isSome
      = true ∧
    Tag.assertExtension (str "a-bc") = true ∧
    Tag.assertExtension (str "a-bcdefghij") = false := by decide

/-- C6 (amended): `set_extensions` panics exactly when some supplied
string has total length ≤ 4 or second character ≠ `-` (so the minimal
well-formed names of length 2 are rejected and there is no upper length
check), and `add_extension` panics on every such string; the mutators for
script, region, lang, variants and private are total. -/
theorem C6_extension_panic_condition (t : Tag) (es : List (List Char)) (e : List Char) :
    (Tag.setExtensions t es = .error () ↔ es.any Tag.assertExtension = true) ∧
    (Tag.assertExtension e = true → Tag.addExtension t e = .error ()) := by
  constructor
  · by_cases hes : es = []
    · subst hes; simp [Tag.setExtensions]
    · rw [Tag.setExtensions, if_neg hes]
      by_cases hbad : (sortLex es).any Tag.assertExtension = true
      · rw [if_pos hbad, ← sortLex_any Tag.assertExtension es]
        simp [hbad]
      · rw [if_neg hbad, ← sortLex_any Tag.assertExtension es]
        simp only [Bool.not_eq_true] at hbad
        simp [hbad]
  · intro hbad
    rw [Tag.addExtension, findExtension, if_pos hbad]

/-- C6 witness: the amended characterisation applied at `a-bc` (rejected
by both mutators) and at a well-formed longer entry (accepted). -/
theorem C6_witness :
    Tag.setExtensions (Tag.withLang (str "en")) [str "a-bc"] = .error () ∧
    Tag.addExtension (Tag.withLang (str "en")) (str "a-bc") = .error () ∧
    ¬ Tag.setExtensions (Tag.withLang (str "en")) [str "a-bcd"] = .error () := by
  refine ⟨?_, ?_, ?_⟩
  · exact (C6_extension_panic_condition (Tag.withLang (str "en")) [str "a-bc"]
      (str "a-bc")).1.mpr (by decide)
  · exact (C6_extension_panic_condition (Tag.withLang (str "en")) [] (str "a-bc")).2
      (by decide)
  · intro h
    have := (C6_extension_panic_condition (Tag.withLang (str "en")) [str "a-bcd"]
      (str "a-bcd")).1.mp h
    exact absurd this (by decide)

/-! ### Claim C9 — `conformant` and its invariance. -/

/-- Offset sanity for a `Tag`: component offsets are monotone and within
the buffer (maintained by every constructor and mutator of the source). -/
def Tag.OffsetsWF (t : Tag) : Prop :=
  t.ends.lang ≤ t.ends.script ∧ t.ends.script ≤ t.ends.region ∧
  t.ends.region ≤ t.ends.variants ∧ t.ends.variants ≤ t.ends.extensions ∧
  t.ends.extensions ≤ t.buf.length

instance (t : Tag) : Decidable (Tag.OffsetsWF t) := by
  unfold Tag.OffsetsWF; infer_instance

theorem take_take_append {α : Type} (l r : List α) (k i : Nat)
    (h1 : k ≤ i) (h2 : k ≤ l.length) :
    (l.take i ++ r).take k = l.take k := by
  rw [List.take_append_of_le_length (by simp [Nat.le_min]; omega), List.take_take]
  congr 1
  omega

/-- A `component_range!` write at `s..e` leaves any prefix `take k`,
`k ≤ s`, unchanged. -/
theorem compReplace_take (buf : List Char) (s e : Nat) (comp : List Char)
    (k : Nat) (hk : k ≤ s) (hlen : k ≤ buf.length) :
    (Tag.compReplace buf s e comp).take k = buf.take k := by
  unfold Tag.compReplace replaceRange
  split
  · rw [List.append_assoc, take_take_append buf _ k s hk hlen]
  · split
    · rw [List.append_assoc, take_take_append buf _ k s hk hlen]
    · rw [List.append_assoc, take_take_append buf _ k (s + 1) (by omega) hlen]

theorem script_congr (t t' : Tag)
    (hbuf : t'.buf.take t.ends.script = t.buf.take t.ends.script)
    (hl : t'.ends.lang = t.ends.lang) (hs : t'.ends.script = t.ends.script) :
    t'.script = t.script := by
  rw [Tag.script, Tag.script, strSlice, strSlice, hl, hs, hbuf]

theorem region_congr (t t' : Tag)
    (hbuf : t'.buf.take t.ends.region = t.buf.take t.ends.region)
    (hs : t'.ends.script = t.ends.script) (hr : t'.ends.region = t.ends.region) :
    t'.region = t.region := by
  rw [Tag.region, Tag.region, strSlice, strSlice, hs, hr, hbuf]

theorem lang_congr (t t' : Tag)
    (hbuf : t'.buf.take t.ends.lang = t.buf.take t.ends.lang)
    (hl : t'.ends.lang = t.ends.lang) : t'.lang = t.lang := by
  rw [Tag.lang, Tag.lang, hl, hbuf]

theorem conformant_congr (L : LangTags) (t t' : Tag)
    (hs : t'.script = t.script) (hr : t'.region = t.region) :
    conformant L t' = conformant L t := by
  rw [conformant, conformant, hs, hr]

/-- `rsplit_once` yields a strictly shorter suffix. -/
theorem rsplitOnce_after_lt (l pre v : List Char)
    (h : rsplitOnce l = some (pre, v)) : v.length < l.length := by
  rw [rsplitOnce] at h
  split at h
  · rename_i hcont
    simp only [Option.some.injEq, Prod.mk.injEq] at h
    obtain ⟨-, hv⟩ := h
    subst hv
    rw [List.length_reverse]
    have hle : (l.reverse.takeWhile (fun c => decide ¬(c = '-'))).length ≤
        l.reverse.length := (List.takeWhile_prefix _).length_le
    rw [List.length_reverse] at hle
    rcases Nat.lt_or_ge (l.reverse.takeWhile (fun c => decide ¬(c = '-'))).length
        l.length with hlt | hge
    · exact hlt
    · exfalso
      have heq : l.reverse.takeWhile (fun c => decide ¬(c = '-')) = l.reverse :=
        (List.takeWhile_prefix _).eq_of_length (by rw [List.length_reverse]; omega)
      have hmem : '-' ∈ l.reverse := by
        rw [List.mem_reverse]; simpa using hcont
      have := List.takeWhile_eq_self_iff.mp heq '-' hmem
      simp at this
  · exact absurd h (by simp)

/-- The starting cut position of `pop_variant` never reaches back before
the region offset. -/
theorem popVariant_start_ge (t : Tag) (pre v : List Char)
    (hwf : Tag.OffsetsWF t)
    (h : rsplitOnce (strSlice t.buf t.ends.region t.ends.variants) = some (pre, v)) :
    t.ends.region ≤ t.ends.variants - v.length - 1 := by
  obtain ⟨-, -, h3, h4, h5⟩ := hwf
  have hlt := rsplitOnce_after_lt _ _ _ h
  have hslen : (strSlice t.buf t.ends.region t.ends.variants).length ≤
      t.ends.variants - t.ends.region := by
    simp [strSlice]; omega
  omega

/-- Prefix preservation for `set_variants`. -/
theorem setVariants_take (t : Tag) (vs : List (List Char)) (k : Nat)
    (hk : k ≤ t.ends.region) (hlen : k ≤ t.buf.length) :
    (t.setVariants vs).buf.take k = t.buf.take k :=
  compReplace_take t.buf t.ends.region t.ends.variants (joinDash vs) k hk hlen

/-- Prefix preservation for `set_private`. -/
theorem setPrivate_take (t : Tag) (p : List Char) (k : Nat)
    (hk : k ≤ t.ends.extensions) (hlen : k ≤ t.buf.length) :
    (t.setPrivate p).buf.take k = t.buf.take k :=
  compReplace_take t.buf t.ends.extensions t.buf.length p k hk hlen

/-- Prefix preservation for the `set_extensions` buffer write. -/
theorem setExtensionsRaw_take (t : Tag) (el : List Char) (k : Nat)
    (hk : k ≤ t.ends.variants) (hlen : k ≤ t.buf.length) :
    (t.setExtensionsRaw el).buf.take k = t.buf.take k :=
  compReplace_take t.buf t.ends.variants t.ends.extensions el k hk hlen

/-- Prefix preservation for `push_variant`. -/
theorem pushVariant_take (t : Tag) (v : List Char) (k : Nat)
    (hk : k ≤ t.ends.variants) (hlen : k ≤ t.buf.length) :
    (t.pushVariant v).buf.take k = t.buf.take k := by
  show (t.buf.take t.ends.variants ++ '-' :: v ++ t.buf.drop t.ends.variants).take k
      = t.buf.take k
  rw [List.append_assoc]
  exact take_take_append _ _ _ _ hk hlen

/-- A successful `set_extensions` is the raw buffer write of some elided
text. -/
theorem setExtensions_ok (t : Tag) (es : List (List Char)) (t' : Tag)
    (hok : t.setExtensions es = .ok t') :
    ∃ el, t' = t.setExtensionsRaw el := by
  rw [Tag.setExtensions] at hok
  split at hok
  · exact ⟨[], by injection hok with h; exact h.symm⟩
  · simp only at hok
    split at hok
    · exact absurd hok (by simp)
    · exact ⟨_, by injection hok with h; exact h.symm⟩

/-- C9: `conformant` is exactly the script/region membership check, and is
invariant under every mutation of the variants, extensions or private
components. -/
theorem C9_conformant (L : LangTags) (t : Tag) (hwf : Tag.OffsetsWF t)
    (vs es : List (List Char)) (v p : List Char) (t' : Tag) :
    (conformant L t = true ↔
      ((t.script = none ∨ ∃ s, t.script = some s ∧ L.scripts.contains s = true) ∧
       (t.region = none ∨ ∃ r, t.region = some r ∧ L.regions.contains r = true))) ∧
    conformant L (t.setVariants vs) = conformant L t ∧
    conformant L (t.pushVariant v) = conformant L t ∧
    conformant L (t.popVariant).2 = conformant L t ∧
    conformant L (t.setPrivate p) = conformant L t ∧
    (t.setExtensions es = .ok t' → conformant L t' = conformant L t) := by
  obtain ⟨h1, h2, h3, h4, h5⟩ := hwf
  have hsl : t.ends.script ≤ t.buf.length := by omega
  have hrl : t.ends.region ≤ t.buf.length := by omega
  refine ⟨?_, ?_, ?_, ?_, ?_, ?_⟩
  · rw [conformant]
    cases t.script <;> cases t.region <;> simp
  · exact conformant_congr L t _
      (script_congr t _ (setVariants_take t vs _ (by omega) hsl) rfl rfl)
      (region_congr t _ (setVariants_take t vs _ (by omega) hrl) rfl rfl)
  · exact conformant_congr L t _
      (script_congr t _ (pushVariant_take t v _ (by omega) hsl) rfl rfl)
      (region_congr t _ (pushVariant_take t v _ (by omega) hrl) rfl rfl)
  · rw [Tag.popVariant]
    cases hrs : rsplitOnce (strSlice t.buf t.ends.region t.ends.variants) with
    | none => rfl
    | some pv =>
      obtain ⟨pre, v'⟩ := pv
      have hst := popVariant_start_ge t pre v' ⟨h1, h2, h3, h4, h5⟩ hrs
      have hbufs : ∀ k, k ≤ t.ends.region → k ≤ t.buf.length →
          (replaceRange t.buf (t.ends.variants - v'.length - 1) t.ends.variants
            []).take k = t.buf.take k := by
        intro k hk hkl
        rw [replaceRange, List.append_assoc]
        exact take_take_append _ _ _ _ (by omega) hkl
      exact conformant_congr L t _
        (script_congr t _ (hbufs _ (by omega) hsl) rfl rfl)
        (region_congr t _ (hbufs _ (by omega) hrl) rfl rfl)
  · exact conformant_congr L t _
      (script_congr t _ (setPrivate_take t p _ (by omega) hsl) rfl rfl)
      (region_congr t _ (setPrivate_take t p _ (by omega) hrl) rfl rfl)
  · intro hok
    obtain ⟨el, hel⟩ := setExtensions_ok t es t' hok
    subst hel
    exact conformant_congr L t _
      (script_congr t _ (setExtensionsRaw_take t el _ (by omega) hsl) rfl rfl)
      (region_congr t _ (setExtensionsRaw_take t el _ (by omega) hrl) rfl rfl)

/-- C9 witness: invariance observed on a concrete conformant tag. -/
theorem C9_witness :
    conformant exL ((mktag "en-Moon-EU").setVariants [str "simple"]) =
      conformant exL (mktag "en-Moon-EU") ∧
    conformant exL (mktag "en-Moon-EU") = true := by
  refine ⟨?_, by decide⟩
  exact (C9_conformant exL (mktag "en-Moon-EU") (by decide) [str "simple"] []
    [] [] (mktag "en-Moon-EU")).2.1

/-! ### Claim C8 — `TagSet` iterator cardinalities. -/

theorem flatten_map_length {α γ : Type} (l : List α) (f : α → List γ) (n : Nat)
    (h : ∀ x ∈ l, (f x).length = n) :
    (l.map f).flatten.length = l.length * n := by
  induction l with
  | nil => simp
  | cons x xs ih =>
    simp only [List.map_cons, List.flatten_cons, List.length_append,
      h x (by simp), ih (fun y hy => h y (by simp [hy])), List.length_cons]
    ring

theorem sum_map_const {α : Type} (l : List α) (f : α → Nat) (n : Nat)
    (h : ∀ x ∈ l, f x = n) : (l.map f).sum = l.length * n := by
  induction l with
  | nil => simp
  | cons x xs ih =>
    simp only [List.map_cons, List.sum_cons, h x (by simp),
      ih (fun y hy => h y (by simp [hy])), List.length_cons]
    ring

theorem flatMap_flatten_length (protos : List (List Tag)) (vars : List (List Char)) :
    ((protos.flatMap (fun proto =>
        vars.map (fun v => proto.map (fun t => t.pushVariant v)))).flatten).length
      = (protos.map List.length).sum * vars.length := by
  induction protos with
  | nil => simp
  | cons p ps ih =>
    rw [List.flatMap_cons, List.flatten_append, List.length_append, ih,
      flatten_map_length vars _ p.length (by intro v hv; simp), List.map_cons,
      List.sum_cons]
    ring

/-- C8: under the data-model invariants, `all_tags` yields exactly
`(2 + |tags| + #tags-with-region × |regions|) × (1 + #fresh-variants)`
tags, and `iter()` yields `1 + |tags| + 1` tags as `[tag, tags…, full]`. -/
theorem C8_tagset_counts (ts : TagSet)
    (hshare : ∀ tg ∈ ts.iterTS, tg.lang = ts.full.lang ∧
      (∀ s, tg.script = some s → ts.full.script = some s))
    (hreg : ∀ r ∈ ts.regions, ts.full.region ≠ some r)
    (hdisj : ∀ v ∈ ts.variants, ts.full.variantsList.contains v = false) :
    ts.allTags.length =
      (2 + ts.tags.length +
        (ts.iterTS.filter (fun t => t.region.isSome)).length * ts.regions.length) *
      (1 + (ts.variants.filter
        (fun v => !(ts.full.variantsList.contains v))).length) ∧
    ts.iterTS = ts.tag :: (ts.tags ++ [ts.full]) ∧
    ts.iterTS.length = 1 + ts.tags.length + 1 := by
  have hfresh : (ts.variants.filter
      (fun v => !(ts.full.variantsList.contains v))).length = ts.variants.length := by
    rw [List.filter_eq_self.mpr]
    intro v hv
    rw [hdisj v hv]; rfl
  have hiterlen : ts.iterTS.length = ts.tags.length + 2 := by
    simp [TagSet.iterTS]
  refine ⟨?_, rfl, by simp [hiterlen]; ring⟩
  rw [hfresh]
  set wr := (ts.iterTS.filter (fun t => t.region.isSome)).length with hwr
  have hrs : ts.regionSets.flatten.length = ts.regions.length * wr := by
    rw [TagSet.regionSets]
    exact flatten_map_length _ _ _ (by intro r hr; simp [hwr])
  have hrs_each : ∀ s ∈ ts.regionSets, s.length = wr := by
    intro s hs
    rw [TagSet.regionSets] at hs
    obtain ⟨r, -, hr⟩ := List.mem_map.mp hs
    simp [← hr, hwr]
  have hvs : ts.variantSets.flatten.length =
      ((ts.tags.length + 2) + ts.regions.length * wr) * ts.variants.length := by
    rw [TagSet.variantSets, flatMap_flatten_length]
    congr 1
    rw [List.map_cons, List.sum_cons, hiterlen,
      sum_map_const ts.regionSets List.length wr hrs_each]
    have : (ts.regionSets).length = ts.regions.length := by
      simp [TagSet.regionSets]
    rw [this]
  rw [TagSet.allTags, List.length_append, List.length_append, hiterlen, hrs, hvs]
  ring

/-- C8 witness: the counts observed on the concrete `en` row. -/
theorem C8_witness :
    enTS.allTags.length =
      (2 + enTS.tags.length +
        (enTS.iterTS.filter (fun t => t.region.isSome)).length * enTS.regions.length) *
      (1 + (enTS.variants.filter
        (fun v => !(enTS.full.variantsList.contains v))).length) := by
  exact (C8_tagset_counts enTS (by decide) (by decide) (by decide)).1

/-! ### Claim C10 — `pop_variant`. -/

theorem splitAll_ne_nil (l : List Char) : splitAll l ≠ [] := by
  cases l with
  | nil => simp [splitAll]
  | cons c cs =>
    rw [splitAll]
    cases h : splitAll cs with
    | nil => simp
    | cons p ps => by_cases hc : c = '-' <;> simp [hc]

/-- A dash-free string splits into itself. -/
theorem splitAll_df (v : List Char) (hdf : v.contains '-' = false) :
    splitAll v = [v] := by
  induction v with
  | nil => rfl
  | cons c cs ih =>
    have hc : ¬ c = '-' := by
      intro h; subst h; simp [List.contains_cons] at hdf
    have hcs : cs.contains '-' = false := by
      simp [List.contains_cons] at hdf; simpa using hdf.2
    rw [splitAll, ih hcs]
    simp [hc]

/-- Splitting a dash-free chunk followed by a dash peels the chunk off. -/
theorem splitAll_df_append (v r : List Char) (hdf : v.contains '-' = false) :
    splitAll (v ++ '-' :: r) = v :: splitAll r := by
  induction v with
  | nil =>
    rw [List.nil_append, splitAll]
    cases h : splitAll r with
    | nil => exact absurd h (splitAll_ne_nil r)
    | cons p ps => simp
  | cons c cs ih =>
    have hc : ¬ c = '-' := by
      intro h; subst h; simp [List.contains_cons] at hdf
    have hcs : cs.contains '-' = false := by
      simp [List.contains_cons] at hdf; simpa using hdf.2
    rw [List.cons_append, splitAll, ih hcs]
    simp [hc]

/-- `joinDash` of a non-empty head list prepends with a separator. -/
theorem joinDash_cons_cons (v w : List Char) (ws : List (List Char)) :
    joinDash (v :: w :: ws) = v ++ '-' :: joinDash (w :: ws) := rfl

theorem splitAll_joinDash (vs : List (List Char)) (hne : vs ≠ [])
    (hdf : ∀ v ∈ vs, v.contains '-' = false) :
    splitAll (joinDash vs) = vs := by
  induction vs with
  | nil => contradiction
  | cons v rest ih =>
    cases rest with
    | nil => exact splitAll_df v (hdf v (by simp))
    | cons w ws =>
      rw [joinDash_cons_cons, splitAll_df_append v _ (hdf v (by simp)),
        ih (by simp) (fun x hx => hdf x (by simp [hx]))]

theorem splitTerm_joinDash (vs : List (List Char)) (hne : vs ≠ [])
    (hparts : ∀ v ∈ vs, v ≠ [] ∧ v.contains '-' = false) :
    splitTerm (joinDash vs) = vs := by
  rw [splitTerm, splitAll_joinDash vs hne (fun v hv => (hparts v hv).2)]
  have hlast : vs.getLast? ≠ some [] := by
    cases hgl : vs.getLast? with
    | none => simp
    | some w =>
      have hw := (hparts w (List.mem_of_mem_getLast? (show w ∈ vs.getLast? by
        rw [hgl]; rfl))).1
      simpa using hw
  simp only [if_neg hlast]

theorem takeWhile_all_append (p : Char → Bool) (a b : List Char)
    (h : ∀ x ∈ a, p x = true) :
    (a ++ b).takeWhile p = a ++ b.takeWhile p := by
  induction a with
  | nil => simp
  | cons x xs ih =>
    rw [List.cons_append, List.takeWhile_cons, if_pos (h x (by simp)),
      ih (fun y hy => h y (by simp [hy]))]
    simp

theorem joinDash_concat (ws : List (List Char)) (w : List Char) (hne : ws ≠ []) :
    joinDash (ws ++ [w]) = joinDash ws ++ '-' :: w := by
  induction ws with
  | nil => contradiction
  | cons v rest ih =>
    cases rest with
    | nil => rfl
    | cons u us =>
      calc joinDash ((v :: u :: us) ++ [w])
          = v ++ '-' :: joinDash ((u :: us) ++ [w]) := rfl
        _ = v ++ '-' :: (joinDash (u :: us) ++ '-' :: w) := by rw [ih (by simp)]
        _ = joinDash (v :: u :: us) ++ '-' :: w := by
              rw [joinDash_cons_cons]; simp

/-- `rsplit_once` on a dash-led join recovers the final chunk. -/
theorem rsplitOnce_joinDash (ws : List (List Char)) (w : List Char)
    (hdf : ∀ v ∈ ws ++ [w], v.contains '-' = false) :
    rsplitOnce ('-' :: joinDash (ws ++ [w])) =
      some (('-' :: joinDash (ws ++ [w])).take
        (('-' :: joinDash (ws ++ [w])).length - w.length - 1), w) := by
  have hwdf : w.contains '-' = false := hdf w (by simp)
  have hwall : ∀ x ∈ w.reverse, (fun c => decide ¬(c = '-')) x = true := by
    intro x hx
    rw [List.mem_reverse] at hx
    have : ¬ x = '-' := by
      intro hxe; subst hxe
      simp at hwdf
      exact hwdf hx
    simpa using this
  have hcont : ('-' :: joinDash (ws ++ [w])).contains '-' = true := by
    simp [List.contains_cons]
  have hafter :
      ((('-' :: joinDash (ws ++ [w])).reverse.takeWhile
        (fun c => decide ¬(c = '-'))).reverse) = w := by
    cases hws : ws with
    | nil =>
      simp only [List.nil_append]
      have : ('-' :: joinDash [w]).reverse = w.reverse ++ ['-'] := by
        simp [joinDash]
      rw [this, takeWhile_all_append _ _ _ hwall]
      simp [List.takeWhile_cons]
    | cons u us =>
      rw [← hws]
      have hne : ws ≠ [] := by rw [hws]; simp
      have : ('-' :: joinDash (ws ++ [w])).reverse =
          w.reverse ++ '-' :: ((joinDash ws).reverse ++ ['-']) := by
        rw [joinDash_concat ws w hne]
        simp
      rw [this, takeWhile_all_append _ _ _ hwall]
      simp [List.takeWhile_cons]
  simp only [rsplitOnce]
  rw [if_pos hcont, hafter]

/-- Variant-component shape invariant: the variants range of the buffer is
empty or a dash-led dash-join of non-empty dash-free variant subtags — the
form every constructor and mutator of the source maintains. -/
def Tag.VariantsShape (t : Tag) : Prop :=
  strSlice t.buf t.ends.region t.ends.variants = [] ∨
  ∃ vs : List (List Char), vs ≠ [] ∧
    (∀ v ∈ vs, v ≠ [] ∧ v.contains '-' = false) ∧
    strSlice t.buf t.ends.region t.ends.variants = '-' :: joinDash vs

/-- C10: with no variants, `pop_variant` returns `None` and the tag is
untouched; with at least one, it removes exactly the last variant,
returns it, and leaves lang, script, region, extensions and private
unchanged. -/
theorem C10_pop_variant (t : Tag) (hwf : Tag.OffsetsWF t)
    (hshape : Tag.VariantsShape t) :
    (t.variantsList = [] → t.popVariant = (none, t)) ∧
    (∀ vs, t.variantsList = vs → vs ≠ [] →
      (t.popVariant).1 = vs.getLast? ∧
      (t.popVariant).2.variantsList = vs.dropLast ∧
      (t.popVariant).2.lang = t.lang ∧
      (t.popVariant).2.script = t.script ∧
      (t.popVariant).2.region = t.region ∧
      (t.popVariant).2.extsList = t.extsList ∧
      (t.popVariant).2.privatePart = t.privatePart) := by
  obtain ⟨hw1, hw2, hw3, hw4, hw5⟩ := hwf
  rcases hshape with hsl | ⟨vs0, hne0, hparts, hsl⟩
  · have hvl : t.variantsList = [] := by
      simp only [Tag.variantsList, hsl]; rfl
    have hpop : t.popVariant = (none, t) := by
      simp only [Tag.popVariant, hsl]; rfl
    exact ⟨fun _ => hpop, fun vs hvs hne => absurd (hvs.symm.trans hvl) hne⟩
  · obtain ⟨ws, w, rfl⟩ : ∃ ws w, vs0 = ws ++ [w] := by
      rcases List.eq_nil_or_concat vs0 with h | ⟨L, b, h⟩
      · exact absurd h hne0
      · exact ⟨L, b, by rw [h, List.concat_eq_append]⟩
    have hdf : ∀ v ∈ ws ++ [w], v.contains '-' = false :=
      fun v hv => (hparts v hv).2
    have hvaN : t.ends.variants ≤ t.buf.length := le_trans hw4 hw5
    have hslen : ('-' :: joinDash (ws ++ [w])).length =
        t.ends.variants - t.ends.region := by
      rw [← hsl]
      simp only [strSlice, List.length_drop, List.length_take]
      omega
    have hjdlen : (joinDash (ws ++ [w])).length + 1 =
        t.ends.variants - t.ends.region := by simpa using hslen
    have hwle : w.length ≤ (joinDash (ws ++ [w])).length := by
      rcases ws with _ | ⟨u, us⟩
      · simp [joinDash]
      · rw [joinDash_concat _ _ (by simp)]
        simp
        omega
    have hdle : w.length + 1 ≤ t.ends.variants - t.ends.region := by omega
    have hvl : t.variantsList = ws ++ [w] := by
      simp only [Tag.variantsList, hsl]
      rw [if_neg (by simp), List.drop_one, List.tail_cons,
        splitTerm_joinDash _ (by simp) hparts]
    have hrs := rsplitOnce_joinDash ws w hdf
    have hbl : (replaceRange t.buf (t.ends.variants - w.length - 1)
        t.ends.variants []).length = t.buf.length - (w.length + 1) := by
      simp only [replaceRange, List.length_append, List.length_take,
        List.length_drop, List.length_nil]
      omega
    have hends : Tag.adjustVariants t.ends
        (Int.ofNat (replaceRange t.buf (t.ends.variants - w.length - 1)
          t.ends.variants []).length - Int.ofNat t.buf.length) =
        ⟨t.ends.lang, t.ends.script, t.ends.region,
         t.ends.variants - w.length - 1,
         t.ends.extensions - (w.length + 1)⟩ := by
      simp only [Tag.adjustVariants, Tag.adj, hbl, Int.ofNat_eq_coe,
        Offsets.mk.injEq, true_and]
      constructor <;> omega
    have hpop : t.popVariant = (some w,
        { buf := replaceRange t.buf (t.ends.variants - w.length - 1)
            t.ends.variants [],
          ends := ⟨t.ends.lang, t.ends.script, t.ends.region,
                   t.ends.variants - w.length - 1,
                   t.ends.extensions - (w.length + 1)⟩ }) := by
      simp only [Tag.popVariant, hsl, hrs, hends]
    have hstart_ge : t.ends.region ≤ t.ends.variants - w.length - 1 := by omega
    have hAr : (t.buf.take (t.ends.variants - w.length - 1)).length =
        t.ends.variants - w.length - 1 := by
      rw [List.length_take]; omega
    have hbuf'eq : replaceRange t.buf (t.ends.variants - w.length - 1)
        t.ends.variants [] =
        t.buf.take (t.ends.variants - w.length - 1) ++
          t.buf.drop t.ends.variants := by
      rw [replaceRange]; simp
    have hmid : t.buf.take t.ends.variants =
        t.buf.take t.ends.region ++ ('-' :: joinDash (ws ++ [w])) := by
      have h0 : t.ends.region ⊓ t.ends.variants = t.ends.region := by omega
      conv_lhs => rw [← List.take_append_drop t.ends.region
        (t.buf.take t.ends.variants)]
      rw [List.take_take, h0,
        show (t.buf.take t.ends.variants).drop t.ends.region =
          strSlice t.buf t.ends.region t.ends.variants from rfl, hsl]
    have hARlen : (t.buf.take t.ends.region).length = t.ends.region := by
      rw [List.length_take]; omega
    have htake_start_decomp : t.buf.take (t.ends.variants - w.length - 1) =
        t.buf.take t.ends.region ++ ('-' :: joinDash (ws ++ [w])).take
          (t.ends.variants - w.length - 1 - t.ends.region) := by
      have h1 : t.buf.take (t.ends.variants - w.length - 1) =
          (t.buf.take t.ends.variants).take (t.ends.variants - w.length - 1) := by
        rw [List.take_take]; congr 1; omega
      have h3 : (t.buf.take t.ends.region).length +
          (t.ends.variants - w.length - 1 - t.ends.region) =
          t.ends.variants - w.length - 1 := by rw [hARlen]; omega
      rw [h1, hmid]
      conv_lhs => rw [← h3]
      rw [List.take_append]
    have htake_pref : ∀ k, k ≤ t.ends.variants - w.length - 1 →
        k ≤ t.buf.length →
        (replaceRange t.buf (t.ends.variants - w.length - 1) t.ends.variants
          []).take k = t.buf.take k := by
      intro k hk hkl
      rw [hbuf'eq]
      exact take_take_append _ _ _ _ hk hkl
    refine ⟨fun h => absurd (h.symm.trans hvl).symm (by simp),
      fun vs' hvs' hne' => ?_⟩
    have hvs0 : vs' = ws ++ [w] := hvs'.symm.trans hvl
    subst hvs0
    rw [hpop]
    have hslice' : strSlice (replaceRange t.buf (t.ends.variants - w.length - 1)
        t.ends.variants []) t.ends.region (t.ends.variants - w.length - 1) =
        ('-' :: joinDash (ws ++ [w])).take
          (t.ends.variants - w.length - 1 - t.ends.region) := by
      rw [strSlice, htake_pref _ (Nat.le_refl _) (by omega), htake_start_decomp]
      exact List.drop_left' hARlen
    refine ⟨by simp [List.getLast?_concat], ?_, ?_, ?_, ?_, ?_, ?_⟩
    · show Tag.variantsList _ = _
      simp only [Tag.variantsList, List.dropLast_concat]
      rcases ws with _ | ⟨u, us⟩
      · have hm0 : t.ends.variants - w.length - 1 - t.ends.region = 0 := by
          simp [joinDash] at hjdlen
          omega
        rw [hslice', hm0]
        rfl
      · have hjc : joinDash ((u :: us) ++ [w]) = joinDash (u :: us) ++ '-' :: w :=
          joinDash_concat _ _ (by simp)
        have hm : t.ends.variants - w.length - 1 - t.ends.region =
            (joinDash (u :: us)).length + 1 := by
          rw [hjc] at hjdlen
          simp at hjdlen
          omega
        have htk : ('-' :: joinDash ((u :: us) ++ [w])).take
            ((joinDash (u :: us)).length + 1) = '-' :: joinDash (u :: us) := by
          rw [hjc, List.take_succ_cons]
          congr 1
          exact List.take_left' rfl
        rw [hslice', hm, htk, if_neg (by simp), List.drop_one, List.tail_cons,
          splitTerm_joinDash _ (by simp)
            (fun v hv => hparts v (by simp at hv ⊢; tauto))]
    · exact lang_congr t _ (htake_pref t.ends.lang (by omega) (by omega)) rfl
    · exact script_congr t _
        (htake_pref t.ends.script (by omega) (by omega)) rfl rfl
    · exact region_congr t _
        (htake_pref t.ends.region (by omega) (by omega)) rfl rfl
    · show Tag.extsList _ = _
      simp only [Tag.extsList]
      have hEsh : strSlice (replaceRange t.buf (t.ends.variants - w.length - 1)
          t.ends.variants []) (t.ends.variants - w.length - 1)
          (t.ends.extensions - (w.length + 1)) =
          strSlice t.buf t.ends.variants t.ends.extensions := by
        have h4 : t.ends.extensions - (w.length + 1) =
            (t.buf.take (t.ends.variants - w.length - 1)).length +
              (t.ends.extensions - t.ends.variants) := by rw [hAr]; omega
        have h5 : t.ends.variants + (t.ends.extensions - t.ends.variants) =
            t.ends.extensions := by omega
        rw [hbuf'eq, strSlice, h4, List.take_append, List.drop_left' hAr,
          strSlice, List.take_drop, h5]
      rw [hEsh]
    · show Tag.privatePart _ = _
      simp only [Tag.privatePart]
      have hPsh : (replaceRange t.buf (t.ends.variants - w.length - 1)
          t.ends.variants []).drop (t.ends.extensions - (w.length + 1)) =
          t.buf.drop t.ends.extensions := by
        have h4 : t.ends.extensions - (w.length + 1) =
            (t.buf.take (t.ends.variants - w.length - 1)).length +
              (t.ends.extensions - t.ends.variants) := by rw [hAr]; omega
        rw [hbuf'eq, h4, List.drop_append, List.drop_drop]
        congr 1
        omega
      rw [hPsh]

/-- C10 witness: popping from a two-variant tag removes exactly the last
variant, and popping from a variant-less tag is a no-op returning `None`. -/
theorem C10_witness :
    ((mktag "en-Latn-US-1abc-2def").popVariant).1 = some (str "2def") ∧
    ((mktag "en-Latn-US-1abc-2def").popVariant).2.variantsList = [str "1abc"] ∧
    (mktag "en-Latn-US").popVariant = (none, mktag "en-Latn-US") := by
  have hshape : Tag.VariantsShape (mktag "en-Latn-US-1abc-2def") :=
    Or.inr ⟨[str "1abc", str "2def"], by decide, by decide, by decide⟩
  have h2 := (C10_pop_variant (mktag "en-Latn-US-1abc-2def") (by decide)
    hshape).2 [str "1abc", str "2def"] (by decide) (by decide)
  refine ⟨?_, ?_, ?_⟩
  · rw [h2.1]; decide
  · rw [h2.2.1]; decide
  · exact (C10_pop_variant (mktag "en-Latn-US") (by decide)
      (Or.inl (by decide))).1 (by decide)

/-! ### Claim C5 — `parse(t.to_string()) == t`. -/

/-- `Tag::new` always stores the passed text as the buffer (both the
normal and the private-use branch). -/
theorem Tag.new_buf (full : List Char) (lang : Nat) (script region : Option Nat)
    (variants exts : List Nat) (priv : Option Nat) :
    (Tag.new full lang script region variants exts priv).buf = full := by
  rw [Tag.new.eq_def]
  split <;> rfl

theorem altP_some {α : Type} (p q : P α) (l : List Char) (x : α × List Char)
    (h : altP p q l = some x) :
    p l = some x ∨ (p l = none ∧ q l = some x) := by
  rw [altP] at h
  split at h
  · rename_i y heq
    exact Or.inl (heq.trans h)
  · rename_i heq
    exact Or.inr ⟨heq, h⟩

theorem fixedParse_val (n : List Char) (lg rg vr : Option (List Char))
    (l : List Char) (t : Tag) (r : List Char)
    (h : fixedParse n lg rg vr l = some (t, r)) :
    t = Tag.fromParts (lg.getD n) none rg vr.toList [] none := by
  rw [fixedParse, tagP] at h
  split at h
  · simp only [Option.some.injEq, Prod.mk.injEq] at h
    exact h.1.symm
  · exact absurd h (by simp)

theorem recognizeP_val {α : Type} (p : P α) (l v : List Char) (r : List Char)
    (h : recognizeP p l = some (v, r)) : v = l.take (l.length - r.length) := by
  rw [recognizeP] at h
  cases hp : p l with
  | none => rw [hp] at h; exact absurd h (by simp)
  | some x =>
    rw [hp] at h
    simp only [Option.some.injEq, Prod.mk.injEq] at h
    obtain ⟨hv, hr⟩ := h
    rw [← hv, hr]

theorem langtagParse_buf (s : List Char) (t : Tag) (r : List Char)
    (h : langtagParse s = some (t, r)) :
    t.buf = s.take (s.length - r.length) := by
  rw [langtagParse] at h
  split at h
  · exact absurd h (by simp)
  · split at h
    · exact absurd h (by simp)
    · simp only [Option.some.injEq, Prod.mk.injEq] at h
      obtain ⟨ht, hr⟩ := h
      rw [← ht, Tag.new_buf, hr]

theorem privateuseParse_buf (s : List Char) (t : Tag) (r : List Char)
    (h : privateuseParse s = some (t, r)) :
    t.buf = s.take (s.length - r.length) := by
  rw [privateuseParse] at h
  cases hp : privateP s with
  | none => rw [hp] at h; exact absurd h (by simp)
  | some x =>
    obtain ⟨pu, r1⟩ := x
    have hpu : pu = s.take (s.length - r1.length) := recognizeP_val _ _ _ _ hp
    rw [hp] at h
    simp only [Option.some.injEq, Prod.mk.injEq] at h
    obtain ⟨ht, hr⟩ := h
    rw [← ht, Tag.privateuse, hpu, hr]

/-- C5 counterexample: `Tag::with_lang("x")` is a well-defined `Tag` value
whose rendering `"x"` the parser rejects, so the round-trip fails for it. -/
theorem C5_counterexample :
    parseTag (Tag.render (Tag.withLang (str "x"))) = none := by decide

/-- C5 (amended): for every Tag produced by the parser from an input it
consumes entirely, re-parsing the tag's string rendering succeeds and
returns that tag. -/
theorem C5_parser_roundtrip (s : List Char) (t : Tag)
    (h : languagetag s = some (t, [])) :
    parseTag (Tag.render t) = some t := by
  have h0 := h
  rw [languagetag] at h
  rcases altP_some _ _ _ _ h with hgr | ⟨-, h⟩
  · -- the nine regular grandfathered substitutions, each a fixed tag
    rw [gfRegular] at hgr
    rcases altP_some _ _ _ _ hgr with h1 | ⟨-, hgr⟩
    · rw [fixedParse_val _ _ _ _ _ _ _ h1]; decide
    rcases altP_some _ _ _ _ hgr with h1 | ⟨-, hgr⟩
    · rw [fixedParse_val _ _ _ _ _ _ _ h1]; decide
    rcases altP_some _ _ _ _ hgr with h1 | ⟨-, hgr⟩
    · rw [fixedParse_val _ _ _ _ _ _ _ h1]; decide
    rcases altP_some _ _ _ _ hgr with h1 | ⟨-, hgr⟩
    · rw [fixedParse_val _ _ _ _ _ _ _ h1]; decide
    rcases altP_some _ _ _ _ hgr with h1 | ⟨-, hgr⟩
    · rw [fixedParse_val _ _ _ _ _ _ _ h1]; decide
    rcases altP_some _ _ _ _ hgr with h1 | ⟨-, hgr⟩
    · rw [fixedParse_val _ _ _ _ _ _ _ h1]; decide
    rcases altP_some _ _ _ _ hgr with h1 | ⟨-, hgr⟩
    · rw [fixedParse_val _ _ _ _ _ _ _ h1]; decide
    rcases altP_some _ _ _ _ hgr with h1 | ⟨-, hgr⟩
    · rw [fixedParse_val _ _ _ _ _ _ _ h1]; decide
    · rw [fixedParse_val _ _ _ _ _ _ _ hgr]; decide
  rcases altP_some _ _ _ _ h with hlt | ⟨-, h⟩
  · -- langtag: the buffer is the (fully consumed) input itself
    have hbuf : Tag.render t = s := by
      have hb := langtagParse_buf _ _ _ hlt
      simpa [Tag.render] using hb
    rw [hbuf, parseTag, h0]
    rfl
  rcases altP_some _ _ _ _ h with hpu | ⟨-, h⟩
  · -- privateuse: likewise the buffer is the input itself
    have hbuf : Tag.render t = s := by
      have hb := privateuseParse_buf _ _ _ hpu
      simpa [Tag.render] using hb
    rw [hbuf, parseTag, h0]
    rfl
  · -- the seventeen irregular grandfathered substitutions
    rw [gfIrregular] at h
    rcases altP_some _ _ _ _ h with h1 | ⟨-, h⟩
    · rw [fixedParse_val _ _ _ _ _ _ _ h1]; decide
    rcases altP_some _ _ _ _ h with h1 | ⟨-, h⟩
    · rw [fixedParse_val _ _ _ _ _ _ _ h1]; decide
    rcases altP_some _ _ _ _ h with h1 | ⟨-, h⟩
    · rw [fixedParse_val _ _ _ _ _ _ _ h1]; decide
    rcases altP_some _ _ _ _ h with h1 | ⟨-, h⟩
    · rw [fixedParse_val _ _ _ _ _ _ _ h1]; decide
    rcases altP_some _ _ _ _ h with h1 | ⟨-, h⟩
    · rw [fixedParse_val _ _ _ _ _ _ _ h1]; decide
    rcases altP_some _ _ _ _ h with h1 | ⟨-, h⟩
    · rw [fixedParse_val _ _ _ _ _ _ _ h1]; decide
    rcases altP_some _ _ _ _ h with h1 | ⟨-, h⟩
    · rw [fixedParse_val _ _ _ _ _ _ _ h1]; decide
    rcases altP_some _ _ _ _ h with h1 | ⟨-, h⟩
    · rw [fixedParse_val _ _ _ _ _ _ _ h1]; decide
    rcases altP_some _ _ _ _ h with h1 | ⟨-, h⟩
    · rw [fixedParse_val _ _ _ _ _ _ _ h1]; decide
    rcases altP_some _ _ _ _ h with h1 | ⟨-, h⟩
    · rw [fixedParse_val _ _ _ _ _ _ _ h1]; decide
    rcases altP_some _ _ _ _ h with h1 | ⟨-, h⟩
    · rw [fixedParse_val _ _ _ _ _ _ _ h1]; decide
    rcases altP_some _ _ _ _ h with h1 | ⟨-, h⟩
    · rw [fixedParse_val _ _ _ _ _ _ _ h1]; decide
    rcases altP_some _ _ _ _ h with h1 | ⟨-, h⟩
    · rw [fixedParse_val _ _ _ _ _ _ _ h1]; decide
    rcases altP_some _ _ _ _ h with h1 | ⟨-, h⟩
    · rw [fixedParse_val _ _ _ _ _ _ _ h1]; decide
    rcases altP_some _ _ _ _ h with h1 | ⟨-, h⟩
    · rw [fixedParse_val _ _ _ _ _ _ _ h1]; decide
    rcases altP_some _ _ _ _ h with h1 | ⟨-, h⟩
    · rw [fixedParse_val _ _ _ _ _ _ _ h1]; decide
    · rw [fixedParse_val _ _ _ _ _ _ _ h]; decide

/-- C5 witness: the round-trip observed via the amended theorem on a
fully-consumed parse of `en-Latn-US`, whose parse result is the expected
buffer/offsets value. -/
theorem C5_witness :
    parseTag (Tag.render (mktag "en-Latn-US")) = some (mktag "en-Latn-US") := by
  exact C5_parser_roundtrip (str "en-Latn-US") (mktag "en-Latn-US") (by decide)
